import Mathlib

/-!
Verification development for the calendar-interop core of the MCC events
site (iCalendar serialization, week-grid time math, event grouping, the
external calendar link builder, and the two HTTP route handlers).

The TypeScript source manipulates JavaScript `Date` values.  An instant is
modelled as its epoch-millisecond value (`Int`).  The runtime's calendar
conversions (`getUTCFullYear`, `getDay`, `setDate`, ...) are modelled with
the standard proleptic-Gregorian civil-calendar conversion on day numbers.
Local time is modelled as a fixed offset (minutes east of UTC) from the
epoch clock; daylight-saving transitions are outside the model.  Note that
`/` and `%` on `Int` are Euclidean (floor division for the positive
divisors used here), matching the floor semantics of the JS date runtime.
-/

/-- Milliseconds per day, the unit underlying the JS `Date` model. -/
def msPerDay : Int := 86400000

/-! ### Civil calendar conversion (model of the JS date runtime)

Day number 0 is 1970-01-01.  `eraOf`..`dayOf` implement the standard
days-to-civil algorithm over 400-year eras; `daysFromCivil` is its inverse.
-/

/-- Index of the 400-year era containing day number `z`. -/
def eraOf (z : Int) : Int := (z + 719468) / 146097

/-- Day-of-era, in `[0, 146097)`. -/
def doeOf (z : Int) : Int := (z + 719468) - eraOf z * 146097

/-- Year-of-era, in `[0, 400)`. -/
def yoeOf (z : Int) : Int :=
  (doeOf z - doeOf z / 1460 + doeOf z / 36524 - doeOf z / 146096) / 365

/-- Day-of-year relative to the March-based year, in `[0, 366)`. -/
def doyOf (z : Int) : Int := doeOf z - (365 * yoeOf z + yoeOf z / 4 - yoeOf z / 100)

/-- March-based month index, in `[0, 12)` (0 = March). -/
def mpOf (z : Int) : Int := (5 * doyOf z + 2) / 153

/-- Civil month of day number `z`, in `[1, 12]`. -/
def monthOf (z : Int) : Int := mpOf z + (if mpOf z < 10 then 3 else -9)

/-- Civil day-of-month of day number `z`, in `[1, 31]`. -/
def dayOf (z : Int) : Int := doyOf z - (153 * mpOf z + 2) / 5 + 1

/-- Civil year of day number `z`. -/
def yearOf (z : Int) : Int :=
  yoeOf z + eraOf z * 400 + (if monthOf z ≤ 2 then 1 else 0)

/-- Civil date `(year, month, day)` of day number `z`. -/
def civilFromDays (z : Int) : Int × Int × Int := (yearOf z, monthOf z, dayOf z)

/-- Year adjusted to the March-based calendar. -/
def dcYAdj (y m : Int) : Int := y - (if m ≤ 2 then 1 else 0)

/-- Era of a civil date. -/
def dcEra (y m : Int) : Int := dcYAdj y m / 400

/-- Year-of-era of a civil date. -/
def dcYoe (y m : Int) : Int := dcYAdj y m - dcEra y m * 400

/-- March-based month index of a civil month. -/
def dcMp (m : Int) : Int := if m > 2 then m - 3 else m + 9

/-- Day-of-year of a civil date (March-based). -/
def dcDoy (m d : Int) : Int := (153 * dcMp m + 2) / 5 + d - 1

/-- Day-of-era of a civil date. -/
def dcDoe (y m d : Int) : Int := dcYoe y m * 365 + dcYoe y m / 4 - dcYoe y m / 100 + dcDoy m d

/-- Day number of the civil date `(y, m, d)`; inverse of `civilFromDays`.
The day component may lie outside `[1, 31]`, in which case the date
normalizes into adjacent months exactly as the JS `setDate` method does. -/
def daysFromCivil (y m d : Int) : Int := dcEra y m * 146097 + dcDoe y m d - 719468

/-! ### Exhaustive verification of the year-of-era formula

The only deep fact in the conversion is that the `yoeOf` division formula
recovers the correct year-of-era for every day-of-era.  We verify it at the
two boundary days of each of the 400 years of an era by kernel evaluation
and extend to all days by monotonicity and interval coverage.
-/

/-- Year-of-era formula on day-of-era values. -/
def bI (a : Int) : Int := (a - a / 1460 + a / 36524 - a / 146096) / 365

/-- First day-of-era of year-of-era `y`. -/
def fI (y : Int) : Int := 365 * y + y / 4 - y / 100

/-- One past the last day-of-era of year-of-era `y`. -/
def gI (y : Int) : Int := if y = 399 then 146097 else fI (y + 1)

/-- Boundary check for one year-of-era: the formula is exact at the first
and last day of the year. -/
def yearCheck (y : Int) : Bool := (bI (fI y) == y) && (bI (gI y - 1) == y)

/-- Boundary check for all years of era below `n`. -/
def yearsCheckAll : Nat → Bool
  | 0 => true
  | y + 1 => yearsCheckAll y && yearCheck (Int.ofNat y)

set_option maxRecDepth 4000 in
theorem yearsCheckAll_400 : yearsCheckAll 400 = true := by decide

theorem yearsCheckAll_sound :
    ∀ n, yearsCheckAll n = true → ∀ y : Nat, y < n → yearCheck (Int.ofNat y) = true := by
  intro n
  induction n with
  | zero => intro _ y hy; omega
  | succ n ih =>
    intro h y hy
    rw [yearsCheckAll, Bool.and_eq_true] at h
    rcases Nat.lt_succ_iff_lt_or_eq.mp hy with h' | h'
    · exact ih h.1 y h'
    · rw [h']; exact h.2

theorem yearCheck_true (y : Int) (h0 : 0 ≤ y) (h1 : y < 400) : yearCheck y = true := by
  have h := yearsCheckAll_sound 400 yearsCheckAll_400 y.toNat (by omega)
  rwa [show Int.ofNat y.toNat = y from Int.toNat_of_nonneg h0] at h

theorem div_comp_146096 (a : Int) : a / 146096 = a / 36524 / 4 := by omega

theorem adjDays_le_succ (a : Int) :
    a - a / 1460 + a / 36524 - a / 146096 ≤
      (a + 1) - (a + 1) / 1460 + (a + 1) / 36524 - (a + 1) / 146096 := by
  have e1 := div_comp_146096 a
  have e2 := div_comp_146096 (a + 1)
  omega

theorem bI_le_succ (a : Int) : bI a ≤ bI (a + 1) := by
  unfold bI
  exact Int.ediv_le_ediv (by norm_num) (adjDays_le_succ a)

theorem bI_mono_add (a : Int) (k : Nat) : bI a ≤ bI (a + k) := by
  induction k with
  | zero => simp
  | succ k ih =>
    have hc : a + ((k + 1 : Nat) : Int) = (a + k) + 1 := by push_cast; ring
    rw [hc]
    exact ih.trans (bI_le_succ (a + k))

theorem bI_mono {a a' : Int} (h : a ≤ a') : bI a ≤ bI a' := by
  have hk := bI_mono_add a (a' - a).toNat
  rwa [show a + ((a' - a).toNat : Int) = a' by omega] at hk

theorem fI_lt_succ (y : Int) : fI y < fI (y + 1) := by
  unfold fI; omega

theorem eraCoverN : ∀ n : Nat, (n : Int) < 146097 →
    ∃ y : Int, 0 ≤ y ∧ y ≤ 399 ∧ fI y ≤ (n : Int) ∧ (n : Int) < gI y := by
  intro n
  induction n with
  | zero => intro _; exact ⟨0, by omega, by omega, by decide, by decide⟩
  | succ n ih =>
    intro h
    have hn : (n : Int) < 146097 := by push_cast at h ⊢; omega
    obtain ⟨y, hy0, hy, h1, h2⟩ := ih hn
    have hcast : ((n + 1 : Nat) : Int) = (n : Int) + 1 := by push_cast; ring
    rw [hcast] at h ⊢
    have hg399 : gI (399 : Int) = 146097 := by decide
    by_cases hlt : (n : Int) + 1 < gI y
    · exact ⟨y, hy0, hy, by omega, hlt⟩
    · have hy399 : y ≠ 399 := by
        intro he
        rw [he, hg399] at h2 hlt
        omega
      have hgy : gI y = fI (y + 1) := by rw [gI, if_neg hy399]
      have hend : (n : Int) + 1 = gI y := by omega
      have hstep : fI (y + 1) < gI (y + 1) := by
        by_cases h9 : y + 1 = 399
        · rw [h9, hg399]; decide
        · rw [gI, if_neg h9]
          exact fI_lt_succ (y + 1)
      exact ⟨y + 1, by omega, by omega, by omega, by omega⟩

theorem eraMain (a : Int) (h0 : 0 ≤ a) (h1 : a < 146097) :
    fI (bI a) ≤ a ∧ a ≤ fI (bI a) + 365 ∧ 0 ≤ bI a ∧ bI a ≤ 399 := by
  obtain ⟨y, hy0, hy, hf, hg⟩ := by
    have := eraCoverN a.toNat (by omega)
    rwa [show ((a.toNat : Nat) : Int) = a by omega] at this
  have hc := yearCheck_true y hy0 (by omega)
  rw [yearCheck, Bool.and_eq_true, beq_iff_eq, beq_iff_eq] at hc
  obtain ⟨e1, e2⟩ := hc
  have hba : bI a = y := by
    have l1 : bI (fI y) ≤ bI a := bI_mono hf
    have l2 : bI a ≤ bI (gI y - 1) := bI_mono (by omega)
    omega
  have hgle : gI y ≤ fI y + 366 := by
    by_cases h9 : y = 399
    · rw [h9, show gI (399 : Int) = 146097 from by decide]; decide
    · rw [gI, if_neg h9]
      unfold fI; omega
  rw [hba]
  exact ⟨hf, by omega, by omega, by omega⟩

theorem yoeCrux (doe yoe : Int) (h0 : 0 ≤ doe) (h1 : doe < 146097)
    (hy : yoe = (doe - doe / 1460 + doe / 36524 - doe / 146096) / 365) :
    0 ≤ yoe ∧ yoe ≤ 399 ∧
      365 * yoe + yoe / 4 - yoe / 100 ≤ doe ∧
      doe ≤ 365 * yoe + yoe / 4 - yoe / 100 + 365 := by
  subst hy
  have hn := eraMain doe h0 h1
  unfold bI fI at hn
  omega

/-! ### Roundtrip: `daysFromCivil` inverts `civilFromDays` -/

theorem doeOf_bounds (z : Int) : 0 ≤ doeOf z ∧ doeOf z < 146097 := by
  unfold doeOf eraOf; omega

theorem yoeOf_bounds (z : Int) :
    0 ≤ yoeOf z ∧ yoeOf z ≤ 399 ∧ 0 ≤ doyOf z ∧ doyOf z ≤ 365 := by
  have hb := doeOf_bounds z
  have hy : yoeOf z =
      (doeOf z - doeOf z / 1460 + doeOf z / 36524 - doeOf z / 146096) / 365 := rfl
  have := yoeCrux (doeOf z) (yoeOf z) hb.1 hb.2 hy
  unfold doyOf
  omega

theorem mpOf_bounds (z : Int) : 0 ≤ mpOf z ∧ mpOf z ≤ 11 := by
  have := yoeOf_bounds z
  unfold mpOf
  omega

theorem dcMp_monthOf (z : Int) : dcMp (monthOf z) = mpOf z := by
  have := mpOf_bounds z
  unfold dcMp monthOf
  split_ifs <;> omega

theorem dcYAdj_yearOf (z : Int) : dcYAdj (yearOf z) (monthOf z) = yoeOf z + eraOf z * 400 := by
  unfold dcYAdj yearOf
  omega

theorem dcEra_yearOf (z : Int) : dcEra (yearOf z) (monthOf z) = eraOf z := by
  have := yoeOf_bounds z
  unfold dcEra
  rw [dcYAdj_yearOf]
  omega

theorem dcYoe_yearOf (z : Int) : dcYoe (yearOf z) (monthOf z) = yoeOf z := by
  have := yoeOf_bounds z
  unfold dcYoe
  rw [dcYAdj_yearOf, dcEra_yearOf]
  omega

theorem dcDoy_of (z : Int) : dcDoy (monthOf z) (dayOf z) = doyOf z := by
  unfold dcDoy dayOf
  rw [dcMp_monthOf]
  omega

theorem daysFromCivil_civilFromDays (z : Int) :
    daysFromCivil (yearOf z) (monthOf z) (dayOf z) = z := by
  unfold daysFromCivil dcDoe
  rw [dcEra_yearOf, dcYoe_yearOf, dcDoy_of]
  unfold doyOf doeOf eraOf
  omega

/-- Shifting the day component of a civil date shifts the day number by the
same amount: this is how `setDate` normalizes out-of-range days. -/
theorem daysFromCivil_shift (y m d n : Int) :
    daysFromCivil y m n = daysFromCivil y m d + (n - d) := by
  unfold daysFromCivil dcDoe dcDoy
  omega

/-! ### JS `Date` field accessors (model)

Accessors take the fixed local-time offset `off` (minutes east of UTC) and
the instant `t` in epoch milliseconds.  UTC accessors are the `off = 0`
case.  Day number 0 (1970-01-01) was a Thursday, hence the `+ 4` in
`getDay`.
-/

/-- Clock value shifted to local time. -/
def localMs (off t : Int) : Int := t + off * 60000

/-- Local calendar day number of an instant. -/
def localDays (off t : Int) : Int := localMs off t / msPerDay

/-- Milliseconds since local midnight. -/
def msOfDay (off t : Int) : Int := localMs off t % msPerDay

/-- Model of `Date.prototype.getFullYear`. -/
def getFullYear (off t : Int) : Int := yearOf (localDays off t)

/-- Model of `Date.prototype.getMonth` (0-based month). -/
def getMonth (off t : Int) : Int := monthOf (localDays off t) - 1

/-- Model of `Date.prototype.getDate` (1-based day of month). -/
def getDate (off t : Int) : Int := dayOf (localDays off t)

/-- Model of `Date.prototype.getDay` (0 = Sunday). -/
def getDay (off t : Int) : Int := (localDays off t + 4) % 7

/-- Model of `Date.prototype.getHours`. -/
def getHours (off t : Int) : Int := msOfDay off t / 3600000

/-- Model of `Date.prototype.getMinutes`. -/
def getMinutes (off t : Int) : Int := msOfDay off t % 3600000 / 60000

/-- Model of `Date.prototype.getSeconds`. -/
def getSeconds (off t : Int) : Int := msOfDay off t % 60000 / 1000

/-- Model of `d.setHours(0, 0, 0, 0)`: local midnight of the same local day. -/
def setHoursZero (off t : Int) : Int := t - msOfDay off t

/-- Model of `d.setDate(n)`: replace the local day-of-month by `n` (which may
lie outside the month, normalizing into adjacent months) and keep the local
time of day. -/
def setDate (off t n : Int) : Int :=
  daysFromCivil (yearOf (localDays off t)) (monthOf (localDays off t)) n * msPerDay
    + msOfDay off t - off * 60000

/-- The net effect of `setDate` is to shift the instant by whole days. -/
theorem setDate_shift (off t n : Int) :
    setDate off t n = t + (n - getDate off t) * msPerDay := by
  unfold setDate getDate
  rw [daysFromCivil_shift (yearOf (localDays off t)) (monthOf (localDays off t))
        (dayOf (localDays off t)) n,
      daysFromCivil_civilFromDays]
  unfold localDays msOfDay localMs msPerDay
  omega

/-! ### Week functions of `EventsList.tsx` -/

/-- Start-of-week convention of the source: `1` = Monday. -/
def WEEK_START : Int := 1

/-- Transcription of `startOfWeek` from `EventsList.tsx`: local midnight of
the Monday of the week containing `t`.  The source computes the day offset
from the original date, zeroes the time fields, then moves the day-of-month
back by the offset. -/
def startOfWeek (off t : Int) : Int :=
  let day := (getDay off t - WEEK_START + 7) % 7
  let d0 := setHoursZero off t
  setDate off d0 (getDate off d0 - day)

/-- Transcription of `endOfWeek` from `EventsList.tsx`: the week start moved
forward seven calendar days via `setDate`. -/
def endOfWeek (off t : Int) : Int :=
  let s := startOfWeek off t
  setDate off s (getDate off s + 7)

/-- Transcription of the `WeekView` filter: an event with start instant `s`
is kept exactly when `s >= weekStart && s < weekEnd`, the reference instant
being `now`. -/
def inDisplayedWeek (off now s : Int) : Bool :=
  decide (startOfWeek off now ≤ s) && decide (s < endOfWeek off now)

theorem endOfWeek_eq (off t : Int) :
    endOfWeek off t = startOfWeek off t + 7 * msPerDay := by
  unfold endOfWeek
  rw [setDate_shift]
  ring

/-! ### UTC accessors (the `off = 0` case) -/

/-- Model of `Date.prototype.getUTCFullYear`. -/
def getUTCFullYear (t : Int) : Int := getFullYear 0 t

/-- Model of `Date.prototype.getUTCMonth` (0-based month). -/
def getUTCMonth (t : Int) : Int := getMonth 0 t

/-- Model of `Date.prototype.getUTCDate`. -/
def getUTCDate (t : Int) : Int := getDate 0 t

/-- Model of `Date.prototype.getUTCHours`. -/
def getUTCHours (t : Int) : Int := getHours 0 t

/-- Model of `Date.prototype.getUTCMinutes`. -/
def getUTCMinutes (t : Int) : Int := getMinutes 0 t

/-- Model of `Date.prototype.getUTCSeconds`. -/
def getUTCSeconds (t : Int) : Int := getSeconds 0 t

/-! ### Decimal rendering (model of JS `Number.prototype.toString` on
integral values) -/

/-- Decimal digit character for `n < 10`. -/
def digitChar (n : Nat) : Char := Char.ofNat (48 + n)

/-- Decimal digit expansion with structural fuel; `fuel ≥ 1 + digit count`
always holds for the fuel supplied by `natToString`, so the first equation
is never reached on its own. -/
def natToStringAux : Nat → Nat → List Char
  | 0, _ => []
  | fuel + 1, n =>
    if n < 10 then [digitChar n]
    else natToStringAux fuel (n / 10) ++ [digitChar (n % 10)]

/-- Decimal rendering of a natural number. -/
def natToString (n : Nat) : String := String.mk (natToStringAux (n + 1) n)

/-- Decimal rendering of an integer, with a leading minus sign when
negative. -/
def intToString (i : Int) : String :=
  if i < 0 then "-" ++ natToString (-i).toNat else natToString i.toNat

/-- Transcription of `pad` from the calendar-file route:
`n.toString().padStart(2, "0")`. -/
def pad (n : Int) : String :=
  let s := intToString n
  if s.length < 2 then String.mk (List.replicate (2 - s.length) '0') ++ s else s

/-- Transcription of `pad` from `EventsList.tsx` (same code, second copy in
the source). -/
def padEl (n : Int) : String :=
  let s := intToString n
  if s.length < 2 then String.mk (List.replicate (2 - s.length) '0') ++ s else s

/-- Transcription of `toIcsUtc` from the calendar-file route: a `Date` as
UTC `YYYYMMDDTHHMMSSZ`. -/
def toIcsUtc (t : Int) : String :=
  intToString (getUTCFullYear t) ++ pad (getUTCMonth t + 1) ++ pad (getUTCDate t) ++ "T" ++
    pad (getUTCHours t) ++ pad (getUTCMinutes t) ++ pad (getUTCSeconds t) ++ "Z"

/-- Transcription of `toGoogleDateUTC` from `EventsList.tsx`. -/
def toGoogleDateUTC (t : Int) : String :=
  intToString (getUTCFullYear t) ++ padEl (getUTCMonth t + 1) ++ padEl (getUTCDate t) ++ "T" ++
    padEl (getUTCHours t) ++ padEl (getUTCMinutes t) ++ padEl (getUTCSeconds t) ++ "Z"

/-! ### iCalendar text escaping and document assembly (calendar-file route) -/

/-- One global single-character `String.prototype.replace` step: every
occurrence of `c` becomes the character list `r`. -/
def replaceChar (c : Char) (r : List Char) (l : List Char) : List Char :=
  l.flatMap (fun x => if x = c then r else [x])

/-- Transcription of `escapeIcsText`: backslash, then semicolon, then comma,
then newline, in the source's order. -/
def escapeIcsText (s : String) : String :=
  String.mk (replaceChar '\n' ['\\', 'n']
    (replaceChar ',' ['\\', ',']
      (replaceChar ';' ['\\', ';']
        (replaceChar '\\' ['\\', '\\'] s.data))))

/-- Event record as selected by the routes
(`id,title,start_ts,end_ts,venue`); the two timestamp strings are modelled
by the instants they denote. -/
structure Event where
  id : String
  title : String
  start_ts : Int
  end_ts : Int
  venue : Option String

/-- The lines of the generated iCalendar document, in source order; `now`
is the generation instant used for `DTSTAMP`. -/
def icsLines (e : Event) (now : Int) : List String :=
  [ "BEGIN:VCALENDAR",
    "VERSION:2.0",
    "PRODID:-//MCC Events//EN",
    "CALSCALE:GREGORIAN",
    "METHOD:PUBLISH",
    "BEGIN:VEVENT",
    "UID:" ++ e.id ++ "@mcc-events",
    "DTSTAMP:" ++ toIcsUtc now,
    "DTSTART:" ++ toIcsUtc e.start_ts,
    "DTEND:" ++ toIcsUtc e.end_ts,
    "SUMMARY:" ++ escapeIcsText e.title,
    "LOCATION:" ++ escapeIcsText (e.venue.getD ""),
    "END:VEVENT",
    "END:VCALENDAR",
    "" ]

/-- Join character lists with the CR+LF terminator, as `.join("\r\n")`. -/
def joinCRLF : List (List Char) → List Char
  | [] => []
  | [l] => l
  | l :: ls => l ++ '\r' :: '\n' :: joinCRLF ls

/-- The generated iCalendar document text (`ics` in the route). -/
def ics (e : Event) (now : Int) : String :=
  String.mk (joinCRLF ((icsLines e now).map String.data))

/-- Characters kept by the filename sanitizer: the regex class
`[a-z0-9_\-]` with the `i` flag. -/
def isFileSafe (c : Char) : Bool :=
  (decide ('a' ≤ c) && decide (c ≤ 'z')) || (decide ('A' ≤ c) && decide (c ≤ 'Z')) ||
    (decide ('0' ≤ c) && decide (c ≤ '9')) || c = '_' || c = '-'

/-- One character of the sanitizing replace: unsafe characters become an
underscore. -/
def sanitizeChar (c : Char) : Char := if isFileSafe c then c else '_'

/-- Transcription of `safeTitle`: replace every character outside
`[a-z0-9_\-]` (case-insensitive) by `_`, then truncate to 50. -/
def safeTitle (title : String) : String :=
  String.mk ((title.data.map sanitizeChar).take 50)

/-- HTTP response as produced by the route handlers. -/
structure HttpResponse where
  status : Nat
  body : String
  headers : List (String × String)

/-- Transcription of the calendar-file route handler `GET /api/ics/[id]`.
The external store interaction is a parameter: `row`/`err` are the `data`
and `error` fields of the single-row lookup response, and `now` is the
generation instant.  `id = none` models an absent dynamic parameter; the
`!id` guard also fires on the empty string. -/
def GET (id : Option String) (row : Option Event) (err : Option String)
    (now : Int) : HttpResponse :=
  match id with
  | none => ⟨400, "Missing event id", []⟩
  | some i =>
    if i = "" then ⟨400, "Missing event id", []⟩
    else
      match err, row with
      | none, some ev =>
        ⟨200, ics ev now,
          [("Content-Type", "text/calendar; charset=utf-8"),
           ("Content-Disposition",
             "attachment; filename=\"event-" ++ safeTitle ev.title ++ ".ics\"")]⟩
      | _, _ => ⟨404, "Event not found", []⟩

/-! ### Support lemmas for the escaper and serializer -/

theorem mk_data_eq (s : String) : String.mk s.data = s := rfl

theorem replaceChar_id (c : Char) (r : List Char) :
    ∀ l : List Char, c ∉ l → replaceChar c r l = l := by
  intro l h
  induction l with
  | nil => rfl
  | cons x xs ih =>
    rw [List.mem_cons, not_or] at h
    unfold replaceChar at ih ⊢
    rw [List.flatMap_cons, if_neg (fun he => h.1 he.symm), ih h.2]
    rfl

theorem replaceChar_self_not_mem (a : Char) (r : List Char) (ha : a ∉ r) :
    ∀ l : List Char, a ∉ replaceChar a r l := by
  intro l
  induction l with
  | nil => simp [replaceChar]
  | cons x xs ih =>
    unfold replaceChar at ih ⊢
    rw [List.flatMap_cons]
    intro hmem
    rcases List.mem_append.mp hmem with h1 | h2
    · by_cases hx : x = a
      · rw [if_pos hx] at h1; exact ha h1
      · rw [if_neg hx] at h1
        rcases List.mem_singleton.mp h1 with rfl
        exact hx rfl
    · exact ih h2

theorem escapeIcsText_no_lf (s : String) : '\n' ∉ (escapeIcsText s).data := by
  unfold escapeIcsText
  exact replaceChar_self_not_mem '\n' ['\\', 'n'] (by decide) _

/-- C2: the escaper applies backslash, semicolon, comma, newline
substitutions in the source's order (witnessed by the scenario title, by a
semicolon-after-backslash input whose backslash is escaped before the
semicolon substitution runs, and by a lone semicolon and a newline), and a
string free of the four reserved characters is returned unchanged. -/
theorem escapeIcsText_correct :
    escapeIcsText "Q&A; Session, Pt.1" = "Q&A\\; Session\\, Pt.1" ∧
    escapeIcsText ";" = "\\;" ∧
    escapeIcsText (String.mk ['\\', ';']) = String.mk ['\\', '\\', '\\', ';'] ∧
    escapeIcsText (String.mk ['a', '\n', 'b']) = String.mk ['a', '\\', 'n', 'b'] ∧
    ∀ s : String, (∀ c ∈ s.data, c ≠ '\\' ∧ c ≠ ';' ∧ c ≠ ',' ∧ c ≠ '\n') →
      escapeIcsText s = s := by
  refine ⟨rfl, rfl, rfl, rfl, fun s h => ?_⟩
  unfold escapeIcsText
  rw [replaceChar_id '\\' _ s.data (fun hm => (h _ hm).1 rfl),
      replaceChar_id ';' _ s.data (fun hm => (h _ hm).2.1 rfl),
      replaceChar_id ',' _ s.data (fun hm => (h _ hm).2.2.1 rfl),
      replaceChar_id '\n' _ s.data (fun hm => (h _ hm).2.2.2 rfl)]

/-- C10: the compact UTC formatter of the calendar-file route and the one of
the external calendar link builder agree on every instant. -/
theorem toIcsUtc_eq_toGoogleDateUTC : ∀ t : Int, toIcsUtc t = toGoogleDateUTC t :=
  fun _ => rfl

/-- The "Welcome BBQ" scenario event; the instants are
2025-09-05T17:00:00Z and 2025-09-05T19:00:00Z in epoch milliseconds. -/
def welcomeBbq : Event :=
  { id := "e1", title := "Welcome BBQ", start_ts := 1757091600000,
    end_ts := 1757098800000, venue := some "Main Hall" }

/-- C3: the scenario event yields the four expected `VEVENT` lines, and in
general the document carries `DTSTART`/`DTEND` rendered by the compact UTC
formatter, `UID` as the event id with the fixed `@mcc-events` suffix,
`SUMMARY` as the escaped title, and `LOCATION` as the escaped venue (empty
when absent). -/
theorem ics_fields :
    (∀ (e : Event) (now : Int),
      "UID:" ++ e.id ++ "@mcc-events" ∈ icsLines e now ∧
      "DTSTART:" ++ toIcsUtc e.start_ts ∈ icsLines e now ∧
      "DTEND:" ++ toIcsUtc e.end_ts ∈ icsLines e now ∧
      "SUMMARY:" ++ escapeIcsText e.title ∈ icsLines e now ∧
      "LOCATION:" ++ escapeIcsText (e.venue.getD "") ∈ icsLines e now) ∧
    toIcsUtc 1757091600000 = "20250905T170000Z" ∧
    toIcsUtc 1757098800000 = "20250905T190000Z" ∧
    ∀ now : Int,
      "DTSTART:20250905T170000Z" ∈ icsLines welcomeBbq now ∧
      "DTEND:20250905T190000Z" ∈ icsLines welcomeBbq now ∧
      "SUMMARY:Welcome BBQ" ∈ icsLines welcomeBbq now ∧
      "LOCATION:Main Hall" ∈ icsLines welcomeBbq now := by
  have hgen : ∀ (e : Event) (now : Int),
      "UID:" ++ e.id ++ "@mcc-events" ∈ icsLines e now ∧
      "DTSTART:" ++ toIcsUtc e.start_ts ∈ icsLines e now ∧
      "DTEND:" ++ toIcsUtc e.end_ts ∈ icsLines e now ∧
      "SUMMARY:" ++ escapeIcsText e.title ∈ icsLines e now ∧
      "LOCATION:" ++ escapeIcsText (e.venue.getD "") ∈ icsLines e now := by
    intro e now
    refine ⟨?_, ?_, ?_, ?_, ?_⟩ <;> simp [icsLines]
  refine ⟨hgen, rfl, rfl, fun now => ?_⟩
  obtain ⟨hu, hs, he, hsum, hloc⟩ := hgen welcomeBbq now
  refine ⟨?_, ?_, ?_, ?_⟩
  · rw [show ("DTSTART:20250905T170000Z" : String) =
        "DTSTART:" ++ toIcsUtc welcomeBbq.start_ts from rfl]
    exact hs
  · rw [show ("DTEND:20250905T190000Z" : String) =
        "DTEND:" ++ toIcsUtc welcomeBbq.end_ts from rfl]
    exact he
  · rw [show ("SUMMARY:Welcome BBQ" : String) =
        "SUMMARY:" ++ escapeIcsText welcomeBbq.title from rfl]
    exact hsum
  · rw [show ("LOCATION:Main Hall" : String) =
        "LOCATION:" ++ escapeIcsText (welcomeBbq.venue.getD "") from rfl]
    exact hloc

/-- C5: the calendar-file endpoint answers 400 with a plain-text body on a
missing or empty id, 404 with a plain-text body when the lookup reports an
error or yields no row, and otherwise 200 with the serializer output as
body. -/
theorem GET_status_cases :
    (∀ row err now, GET none row err now = ⟨400, "Missing event id", []⟩) ∧
    (∀ row err now, GET (some "") row err now = ⟨400, "Missing event id", []⟩) ∧
    (∀ i msg row now, i ≠ "" →
      GET (some i) row (some msg) now = ⟨404, "Event not found", []⟩) ∧
    (∀ i err now, i ≠ "" →
      GET (some i) none err now = ⟨404, "Event not found", []⟩) ∧
    (∀ i ev now, i ≠ "" →
      (GET (some i) (some ev) none now).status = 200 ∧
      (GET (some i) (some ev) none now).body = ics ev now) := by
  refine ⟨fun _ _ _ => rfl, fun row err now => by simp [GET], ?_, ?_, ?_⟩
  · intro i msg row now hi
    cases row <;> simp [GET, hi]
  · intro i err now hi
    cases err <;> simp [GET, hi]
  · intro i ev now hi
    constructor <;> simp [GET, hi]

theorem isFileSafe_sanitizeChar (c : Char) : isFileSafe (sanitizeChar c) = true := by
  unfold sanitizeChar
  by_cases h : isFileSafe c = true
  · rw [if_pos h]; exact h
  · rw [if_neg h]; decide

/-- C7: on success the calendar-file response carries the calendar MIME
type and an attachment filename built from the sanitized title, and for
every title the sanitized form contains only alphanumerics, underscore and
hyphen and is at most 50 characters long. -/
theorem GET_success_headers :
    (∀ i ev now, i ≠ "" →
      (GET (some i) (some ev) none now).headers =
        [("Content-Type", "text/calendar; charset=utf-8"),
         ("Content-Disposition",
           "attachment; filename=\"event-" ++ safeTitle ev.title ++ ".ics\"")]) ∧
    ∀ title : String,
      (safeTitle title).length ≤ 50 ∧ ∀ c ∈ (safeTitle title).data, isFileSafe c = true := by
  constructor
  · intro i ev now hi
    simp [GET, hi]
  · intro title
    constructor
    · show ((title.data.map sanitizeChar).take 50).length ≤ 50
      rw [List.length_take]
      omega
    · intro c hc
      have hc' : c ∈ title.data.map sanitizeChar := List.take_subset 50 _ hc
      obtain ⟨x, _, rfl⟩ := List.mem_map.mp hc'
      exact isFileSafe_sanitizeChar x

/-! ### Line structure of the generated document

`splitCRLF` is the consumer's view: cut the text at every CR+LF.  Together
with `joinCRLF` it lets the block structure of the serialized document be
stated about the output text itself rather than about the line list the
code happened to build. -/

/-- CRLF splitter with structural fuel (`fuel > length` always holds for
the fuel supplied by `splitCRLF`). -/
def splitCRLFAux : Nat → List Char → List (List Char)
  | 0, _ => [[]]
  | fuel + 1, l =>
    match l with
    | [] => [[]]
    | c :: rest =>
      if c = '\r' ∧ rest.head? = some '\n' then
        [] :: splitCRLFAux fuel rest.tail
      else
        (c :: (splitCRLFAux fuel rest).headI) :: (splitCRLFAux fuel rest).tail

/-- Split a character list at every CR+LF pair (the `splitOn "\r\n"`
view of a text). -/
def splitCRLF (l : List Char) : List (List Char) := splitCRLFAux (l.length + 1) l

theorem splitCRLFAux_irrel :
    ∀ f1, ∀ l : List Char, ∀ f2, l.length < f1 → l.length < f2 →
      splitCRLFAux f1 l = splitCRLFAux f2 l := by
  intro f1
  induction f1 with
  | zero => intro l f2 h1 _; omega
  | succ f ih =>
    intro l f2 h1 h2
    cases f2 with
    | zero => omega
    | succ g =>
      cases l with
      | nil => rfl
      | cons c rest =>
        simp only [splitCRLFAux]
        have hlen : rest.length < f ∧ rest.length < g := by
          simp only [List.length_cons] at h1 h2
          omega
        by_cases hc : c = '\r' ∧ rest.head? = some '\n'
        · rw [if_pos hc, if_pos hc]
          have : rest.tail.length < f ∧ rest.tail.length < g := by
            rw [List.length_tail]
            omega
          rw [ih rest.tail g this.1 this.2]
        · rw [if_neg hc, if_neg hc, ih rest g hlen.1 hlen.2]

theorem splitCRLFAux_single :
    ∀ l : List Char, '\n' ∉ l → ∀ f, l.length < f → splitCRLFAux f l = [l] := by
  intro l
  induction l with
  | nil =>
    intro _ f hf
    cases f with
    | zero => omega
    | succ g => rfl
  | cons c rest ih =>
    intro h f hf
    cases f with
    | zero => omega
    | succ g =>
      rw [List.mem_cons, not_or] at h
      simp only [splitCRLFAux]
      have hcond : ¬(c = '\r' ∧ rest.head? = some '\n') := by
        rintro ⟨-, hh⟩
        cases rest with
        | nil => simp at hh
        | cons x rest' =>
          simp only [List.head?_cons, Option.some.injEq] at hh
          exact h.2 (hh ▸ List.mem_cons_self x rest')
      rw [if_neg hcond, ih h.2 g (by simp only [List.length_cons] at hf; omega)]
      rfl

theorem splitCRLFAux_sep :
    ∀ l t : List Char, '\n' ∉ l → ∀ f, (l ++ '\r' :: '\n' :: t).length < f →
      splitCRLFAux f (l ++ '\r' :: '\n' :: t) = l :: splitCRLFAux (t.length + 1) t := by
  intro l
  induction l with
  | nil =>
    intro t _ f hf
    cases f with
    | zero => simp at hf
    | succ g =>
      rw [List.nil_append]
      rw [show splitCRLFAux (g + 1) ('\r' :: '\n' :: t) = [] :: splitCRLFAux g t from rfl]
      rw [splitCRLFAux_irrel g t (t.length + 1)
            (by simp only [List.nil_append, List.length_cons] at hf; omega) (by omega)]
  | cons c rest ih =>
    intro t h f hf
    cases f with
    | zero => simp at hf
    | succ g =>
      rw [List.mem_cons, not_or] at h
      rw [List.cons_append]
      simp only [splitCRLFAux]
      have hcond : ¬(c = '\r' ∧ (rest ++ '\r' :: '\n' :: t).head? = some '\n') := by
        rintro ⟨-, hh⟩
        cases rest with
        | nil => simp at hh
        | cons x rest' =>
          simp only [List.cons_append, List.head?_cons, Option.some.injEq] at hh
          exact h.2 (hh ▸ List.mem_cons_self x rest')
      rw [if_neg hcond,
          ih t h.2 g (by simp only [List.cons_append, List.length_cons] at hf; omega)]
      rfl

theorem splitCRLF_joinCRLF :
    ∀ ls : List (List Char), ls ≠ [] → (∀ l ∈ ls, '\n' ∉ l) →
      splitCRLF (joinCRLF ls) = ls := by
  intro ls
  induction ls with
  | nil => intro h _; exact absurd rfl h
  | cons l ls' ih =>
    intro _ hlf
    cases ls' with
    | nil =>
      show splitCRLFAux (l.length + 1) l = [l]
      exact splitCRLFAux_single l (hlf l (List.mem_cons_self l [])) _ (by omega)
    | cons l' ls'' =>
      show splitCRLFAux ((l ++ '\r' :: '\n' :: joinCRLF (l' :: ls'')).length + 1)
            (l ++ '\r' :: '\n' :: joinCRLF (l' :: ls'')) = _
      rw [splitCRLFAux_sep l (joinCRLF (l' :: ls''))
            (hlf l (List.mem_cons_self l _)) _ (by omega)]
      have := ih (by simp) (fun x hx => hlf x (List.mem_cons_of_mem l hx))
      rw [show splitCRLFAux ((joinCRLF (l' :: ls'')).length + 1) (joinCRLF (l' :: ls'')) =
            splitCRLF (joinCRLF (l' :: ls'')) from rfl, this]

/-! ### Bare line feeds -/

/-- Scan for a `'\n'` not immediately preceded by `'\r'`; `prev` is the
character before the current position. -/
def noBareLFAux (prev : Char) : List Char → Bool
  | [] => true
  | c :: rest => (c != '\n' || prev == '\r') && noBareLFAux c rest

/-- Every LF in the list is part of a CR+LF pair (and the list does not
start with a bare LF). -/
def noBareLF (l : List Char) : Bool := noBareLFAux 'A' l

theorem noBareLFAux_append (a b : List Char) :
    ∀ p, noBareLFAux p (a ++ b) = (noBareLFAux p a && noBareLFAux (a.getLastD p) b) := by
  induction a with
  | nil => intro p; simp [noBareLFAux, List.getLastD]
  | cons c a ih =>
    intro p
    simp only [List.cons_append, noBareLFAux, List.append_eq]
    rw [ih c]
    simp only [List.getLastD_cons, Bool.and_assoc]

theorem noBareLFAux_of_no_lf (l : List Char) (h : '\n' ∉ l) :
    ∀ p, noBareLFAux p l = true := by
  induction l with
  | nil => intro p; rfl
  | cons c rest ih =>
    intro p
    rw [List.mem_cons, not_or] at h
    simp only [noBareLFAux, Bool.and_eq_true, Bool.or_eq_true, bne_iff_ne]
    exact ⟨Or.inl (fun he => h.1 he.symm), ih h.2 c⟩

theorem noBareLF_joinCRLF :
    ∀ ls : List (List Char), (∀ l ∈ ls, '\n' ∉ l) →
      ∀ p, noBareLFAux p (joinCRLF ls) = true := by
  intro ls
  induction ls with
  | nil => intro _ p; rfl
  | cons l ls' ih =>
    intro hlf p
    cases ls' with
    | nil => exact noBareLFAux_of_no_lf l (hlf l (List.mem_cons_self l [])) p
    | cons l' ls'' =>
      have hsep : ∀ (q : Char) (X : List Char),
          noBareLFAux q ('\r' :: '\n' :: X) = noBareLFAux '\n' X := by
        intro q X
        show (('\r' != '\n' || q == '\r') &&
          (('\n' != '\n' || '\r' == '\r') && noBareLFAux '\n' X)) = noBareLFAux '\n' X
        simp
      show noBareLFAux p (l ++ '\r' :: '\n' :: joinCRLF (l' :: ls'')) = true
      rw [noBareLFAux_append, hsep,
          noBareLFAux_of_no_lf l (hlf l (List.mem_cons_self l _)) p, Bool.true_and]
      exact ih (fun x hx => hlf x (List.mem_cons_of_mem l hx)) '\n'

/-! ### Character sets of the rendered fields -/

/-- The ten decimal digit characters. -/
def digitList : List Char := ['0', '1', '2', '3', '4', '5', '6', '7', '8', '9']

/-- Characters that can appear in a compact UTC timestamp. -/
def icsTimeChars : List Char := 'T' :: 'Z' :: '-' :: digitList

theorem digitChar_mem (n : Nat) (h : n < 10) : digitChar n ∈ digitList := by
  interval_cases n <;> decide

theorem natToStringAux_chars :
    ∀ f n, ∀ c ∈ natToStringAux f n, c ∈ digitList := by
  intro f
  induction f with
  | zero => intro n c hc; simp [natToStringAux] at hc
  | succ f ih =>
    intro n c hc
    rw [natToStringAux] at hc
    by_cases h : n < 10
    · rw [if_pos h] at hc
      rcases List.mem_singleton.mp hc with rfl
      exact digitChar_mem n h
    · rw [if_neg h] at hc
      rcases List.mem_append.mp hc with h1 | h2
      · exact ih _ _ h1
      · rcases List.mem_singleton.mp h2 with rfl
        exact digitChar_mem _ (Nat.mod_lt n (by omega))

theorem intToString_chars (i : Int) : ∀ c ∈ (intToString i).data, c ∈ '-' :: digitList := by
  intro c hc
  unfold intToString at hc
  by_cases h : i < 0
  · rw [if_pos h, String.data_append] at hc
    rcases List.mem_append.mp hc with h1 | h2
    · rcases List.mem_singleton.mp h1 with rfl
      exact List.mem_cons_self _ _
    · exact List.mem_cons_of_mem _ (natToStringAux_chars _ _ c h2)
  · rw [if_neg h] at hc
    exact List.mem_cons_of_mem _ (natToStringAux_chars _ _ c hc)

theorem pad_chars (n : Int) : ∀ c ∈ (pad n).data, c ∈ '-' :: digitList := by
  intro c hc
  simp only [pad] at hc
  by_cases h : (intToString n).length < 2
  · rw [if_pos h, String.data_append] at hc
    rcases List.mem_append.mp hc with h1 | h2
    · rcases (List.mem_replicate.mp h1).2 with rfl
      decide
    · exact intToString_chars n c h2
  · rw [if_neg h] at hc
    exact intToString_chars n c hc

theorem toIcsUtc_chars (t : Int) : ∀ c ∈ (toIcsUtc t).data, c ∈ icsTimeChars := by
  intro c hc
  unfold toIcsUtc at hc
  simp only [String.data_append, List.mem_append] at hc
  have weaken : c ∈ '-' :: digitList → c ∈ icsTimeChars := fun h =>
    List.mem_cons_of_mem 'T' (List.mem_cons_of_mem 'Z' h)
  rcases hc with ((((((h | h) | h) | h) | h) | h) | h) | h
  · exact weaken (intToString_chars _ c h)
  · exact weaken (pad_chars _ c h)
  · exact weaken (pad_chars _ c h)
  · rcases List.mem_singleton.mp h with rfl
    exact List.mem_cons_self 'T' _
  · exact weaken (pad_chars _ c h)
  · exact weaken (pad_chars _ c h)
  · exact weaken (pad_chars _ c h)
  · rcases List.mem_singleton.mp h with rfl
    exact List.mem_cons_of_mem 'T' (List.mem_cons_self 'Z' _)

theorem no_lf_append {a b : List Char} (ha : '\n' ∉ a) (hb : '\n' ∉ b) :
    '\n' ∉ a ++ b := by
  intro h
  rcases List.mem_append.mp h with h | h
  · exact ha h
  · exact hb h

theorem toIcsUtc_no_lf (t : Int) : '\n' ∉ (toIcsUtc t).data := by
  intro h
  have := toIcsUtc_chars t _ h
  simp [icsTimeChars, digitList] at this

theorem icsLines_no_lf (e : Event) (now : Int) (hid : '\n' ∉ e.id.data) :
    ∀ l ∈ (icsLines e now).map String.data, '\n' ∉ l := by
  intro l hl
  simp only [icsLines, List.map_cons, List.map_nil, List.mem_cons,
    List.not_mem_nil, or_false] at hl
  rcases hl with h|h|h|h|h|h|h|h|h|h|h|h|h|h|h <;> subst h
  · decide
  · decide
  · decide
  · decide
  · decide
  · decide
  · rw [String.data_append, String.data_append]
    exact no_lf_append (no_lf_append (by decide) hid) (by decide)
  · rw [String.data_append]
    exact no_lf_append (by decide) (toIcsUtc_no_lf now)
  · rw [String.data_append]
    exact no_lf_append (by decide) (toIcsUtc_no_lf _)
  · rw [String.data_append]
    exact no_lf_append (by decide) (toIcsUtc_no_lf _)
  · rw [String.data_append]
    exact no_lf_append (by decide) (escapeIcsText_no_lf _)
  · rw [String.data_append]
    exact no_lf_append (by decide) (escapeIcsText_no_lf _)
  · decide
  · decide
  · decide

theorem head?_append_left {l1 : List Char} (l2 : List Char) (c : Char)
    (h : l1.head? = some c) : (l1 ++ l2).head? = some c := by
  cases l1 with
  | nil => simp at h
  | cons a l => simpa using h

theorem beq_false_of_head (l1 l2 : List Char) (c1 c2 : Char)
    (h1 : l1.head? = some c1) (h2 : l2.head? = some c2) (hne : c1 ≠ c2) :
    (l1 == l2) = false := by
  rw [beq_eq_false_iff_ne]
  intro he
  rw [he, h2] at h1
  exact hne (Option.some.inj h1).symm

theorem isPrefixOf_append_self (l t : List Char) : l.isPrefixOf (l ++ t) = true :=
  List.isPrefixOf_iff_prefix.mpr ⟨t, rfl⟩

theorem suffix_joinCRLF_cons (t x l : List Char) (ls : List (List Char))
    (h : t <:+ joinCRLF (x :: ls)) : t <:+ joinCRLF (l :: x :: ls) := by
  obtain ⟨s, hs⟩ := h
  exact ⟨l ++ '\r' :: '\n' :: s,
    by rw [show joinCRLF (l :: x :: ls) = l ++ '\r' :: '\n' :: joinCRLF (x :: ls) from rfl,
           ← hs]; simp⟩

/-- C1 (amended): for every event record whose id contains no line feed,
the serialized document starts with the `BEGIN:VCALENDAR` line, its CR+LF
split contains the line `BEGIN:VEVENT` exactly once and the line
`END:VEVENT` exactly once, it ends with `END:VCALENDAR` followed by the
final CR+LF, and every LF in it is part of a CR+LF pair.  The id must be
constrained because the route interpolates it into the `UID` line without
any escaping. -/
theorem ics_structure (e : Event) (now : Int) (hid : '\n' ∉ e.id.data) :
    "BEGIN:VCALENDAR".data.isPrefixOf (ics e now).data = true ∧
    (splitCRLF (ics e now).data).count "BEGIN:VEVENT".data = 1 ∧
    (splitCRLF (ics e now).data).count "END:VEVENT".data = 1 ∧
    "END:VCALENDAR\r\n".data.isSuffixOf (ics e now).data = true ∧
    noBareLF (ics e now).data = true := by
  have hlf := icsLines_no_lf e now hid
  have hsplit : splitCRLF (ics e now).data = (icsLines e now).map String.data := by
    rw [show (ics e now).data = joinCRLF ((icsLines e now).map String.data) from rfl]
    exact splitCRLF_joinCRLF _ (by simp [icsLines]) hlf
  have huid : (("UID:" ++ e.id ++ "@mcc-events").data).head? = some 'U' := by
    rw [String.data_append, String.data_append]
    exact head?_append_left _ 'U' (head?_append_left _ 'U' rfl)
  have hstamp : (("DTSTAMP:" ++ toIcsUtc now).data).head? = some 'D' := by
    rw [String.data_append]; exact head?_append_left _ 'D' rfl
  have hstart : (("DTSTART:" ++ toIcsUtc e.start_ts).data).head? = some 'D' := by
    rw [String.data_append]; exact head?_append_left _ 'D' rfl
  have hend2 : (("DTEND:" ++ toIcsUtc e.end_ts).data).head? = some 'D' := by
    rw [String.data_append]; exact head?_append_left _ 'D' rfl
  have hsum : (("SUMMARY:" ++ escapeIcsText e.title).data).head? = some 'S' := by
    rw [String.data_append]; exact head?_append_left _ 'S' rfl
  have hloc : (("LOCATION:" ++ escapeIcsText (e.venue.getD "")).data).head? = some 'L' := by
    rw [String.data_append]; exact head?_append_left _ 'L' rfl
  refine ⟨?_, ?_, ?_, ?_, ?_⟩
  · show "BEGIN:VCALENDAR".data.isPrefixOf
      (joinCRLF ((icsLines e now).map String.data)) = true
    exact isPrefixOf_append_self "BEGIN:VCALENDAR".data _
  · rw [hsplit,
      show (icsLines e now).map String.data =
        ["BEGIN:VCALENDAR".data, "VERSION:2.0".data, "PRODID:-//MCC Events//EN".data,
         "CALSCALE:GREGORIAN".data, "METHOD:PUBLISH".data, "BEGIN:VEVENT".data,
         ("UID:" ++ e.id ++ "@mcc-events").data, ("DTSTAMP:" ++ toIcsUtc now).data,
         ("DTSTART:" ++ toIcsUtc e.start_ts).data, ("DTEND:" ++ toIcsUtc e.end_ts).data,
         ("SUMMARY:" ++ escapeIcsText e.title).data,
         ("LOCATION:" ++ escapeIcsText (e.venue.getD "")).data,
         "END:VEVENT".data, "END:VCALENDAR".data, "".data] from rfl]
    simp only [List.count_cons, List.count_nil]
    rw [beq_false_of_head _ "BEGIN:VEVENT".data 'U' 'B' huid rfl (by decide),
        beq_false_of_head _ "BEGIN:VEVENT".data 'D' 'B' hstamp rfl (by decide),
        beq_false_of_head _ "BEGIN:VEVENT".data 'D' 'B' hstart rfl (by decide),
        beq_false_of_head _ "BEGIN:VEVENT".data 'D' 'B' hend2 rfl (by decide),
        beq_false_of_head _ "BEGIN:VEVENT".data 'S' 'B' hsum rfl (by decide),
        beq_false_of_head _ "BEGIN:VEVENT".data 'L' 'B' hloc rfl (by decide)]
    decide
  · rw [hsplit,
      show (icsLines e now).map String.data =
        ["BEGIN:VCALENDAR".data, "VERSION:2.0".data, "PRODID:-//MCC Events//EN".data,
         "CALSCALE:GREGORIAN".data, "METHOD:PUBLISH".data, "BEGIN:VEVENT".data,
         ("UID:" ++ e.id ++ "@mcc-events").data, ("DTSTAMP:" ++ toIcsUtc now).data,
         ("DTSTART:" ++ toIcsUtc e.start_ts).data, ("DTEND:" ++ toIcsUtc e.end_ts).data,
         ("SUMMARY:" ++ escapeIcsText e.title).data,
         ("LOCATION:" ++ escapeIcsText (e.venue.getD "")).data,
         "END:VEVENT".data, "END:VCALENDAR".data, "".data] from rfl]
    simp only [List.count_cons, List.count_nil]
    rw [beq_false_of_head _ "END:VEVENT".data 'U' 'E' huid rfl (by decide),
        beq_false_of_head _ "END:VEVENT".data 'D' 'E' hstamp rfl (by decide),
        beq_false_of_head _ "END:VEVENT".data 'D' 'E' hstart rfl (by decide),
        beq_false_of_head _ "END:VEVENT".data 'D' 'E' hend2 rfl (by decide),
        beq_false_of_head _ "END:VEVENT".data 'S' 'E' hsum rfl (by decide),
        beq_false_of_head _ "END:VEVENT".data 'L' 'E' hloc rfl (by decide)]
    decide
  · apply List.isSuffixOf_iff_suffix.mpr
    show "END:VCALENDAR\r\n".data <:+ joinCRLF ((icsLines e now).map String.data)
    simp only [icsLines, List.map_cons, List.map_nil]
    apply suffix_joinCRLF_cons
    apply suffix_joinCRLF_cons
    apply suffix_joinCRLF_cons
    apply suffix_joinCRLF_cons
    apply suffix_joinCRLF_cons
    apply suffix_joinCRLF_cons
    apply suffix_joinCRLF_cons
    apply suffix_joinCRLF_cons
    apply suffix_joinCRLF_cons
    apply suffix_joinCRLF_cons
    apply suffix_joinCRLF_cons
    apply suffix_joinCRLF_cons
    apply suffix_joinCRLF_cons
    exact List.suffix_refl _
  · show noBareLFAux 'A' (joinCRLF ((icsLines e now).map String.data)) = true
    exact noBareLF_joinCRLF _ hlf 'A'

/-- An event whose id smuggles a complete extra `BEGIN:VEVENT` line into the
document through the unescaped `UID` field. -/
def badIdEvent : Event :=
  { id := "X\r\nBEGIN:VEVENT\r\nY", title := "t", start_ts := 0, end_ts := 0,
    venue := none }

set_option maxRecDepth 10000 in
/-- C1 counterexample: the claim as stated fails for an event record whose
id contains a CR+LF followed by `BEGIN:VEVENT`; the CR+LF split of the
output then contains the `BEGIN:VEVENT` line twice. -/
theorem ics_structure_counterexample :
    ¬ ("BEGIN:VCALENDAR".data.isPrefixOf (ics badIdEvent 0).data = true ∧
       (splitCRLF (ics badIdEvent 0).data).count "BEGIN:VEVENT".data = 1 ∧
       (splitCRLF (ics badIdEvent 0).data).count "END:VEVENT".data = 1 ∧
       "END:VCALENDAR\r\n".data.isSuffixOf (ics badIdEvent 0).data = true ∧
       noBareLF (ics badIdEvent 0).data = true) := by
  decide

/-- C1 witness: the amended hypothesis is satisfiable and the conclusion
holds at the scenario event. -/
theorem ics_structure_witness :
    "BEGIN:VCALENDAR".data.isPrefixOf (ics welcomeBbq 0).data = true ∧
    (splitCRLF (ics welcomeBbq 0).data).count "BEGIN:VEVENT".data = 1 ∧
    (splitCRLF (ics welcomeBbq 0).data).count "END:VEVENT".data = 1 ∧
    "END:VCALENDAR\r\n".data.isSuffixOf (ics welcomeBbq 0).data = true ∧
    noBareLF (ics welcomeBbq 0).data = true :=
  ics_structure welcomeBbq 0 (by decide)

/-! ### Event grouping of `ListView` (`EventsList.tsx`)

The component keys each event by the UTC date slice of its start instant
(`toISOString().slice(0, 10)`), accumulates groups in a `Map` in input
order, and sorts the resulting entries by key.
-/

/-- Width-padded decimal rendering, as used by `toISOString`. -/
def padNat (w n : Nat) : String :=
  String.mk (List.replicate (w - (natToString n).length) '0') ++ natToString n

/-- Year formatting of `toISOString`: four digits, or an explicit sign and
six digits outside `[0, 9999]`. -/
def isoYear (y : Int) : String :=
  if y < 0 then "-" ++ padNat 6 (-y).toNat
  else if y > 9999 then "+" ++ padNat 6 y.toNat
  else padNat 4 y.toNat

/-- Model of `new Date(ts).toISOString().slice(0, 10)`: the UTC
`YYYY-MM-DD` day key used for grouping. -/
def dayKey (t : Int) : String :=
  isoYear (getUTCFullYear t) ++ "-" ++ padNat 2 (getUTCMonth t + 1).toNat ++ "-" ++
    padNat 2 (getUTCDate t).toNat

/-- Day key of an event's start instant. -/
def groupKey (e : Event) : String := dayKey e.start_ts

/-- One step of the grouping `Map`: push onto an existing key's list, else
append a new entry (insertion order of keys is first-occurrence order). -/
def insertEvent : List (String × List Event) → String → Event → List (String × List Event)
  | [], k, e => [(k, [e])]
  | p :: rest, k, e =>
    if p.1 = k then (p.1, p.2 ++ [e]) :: rest else p :: insertEvent rest k e

/-- The grouping `Map` contents after the `for` loop, in key insertion
order. -/
def groupsUnsorted (evs : List Event) : List (String × List Event) :=
  evs.foldl (fun m e => insertEvent m (groupKey e) e) []

/-- Ordered insertion by day key, modelling the comparator
`([a], [b]) => a.localeCompare(b)`. -/
def insertPair (p : String × List Event) :
    List (String × List Event) → List (String × List Event)
  | [] => [p]
  | q :: rest => if p.1 < q.1 then p :: q :: rest else q :: insertPair p rest

/-- Sort the group entries by day key. -/
def sortPairs (l : List (String × List Event)) : List (String × List Event) :=
  l.foldr insertPair []

/-- The `groups` value rendered by `ListView`: grouped by day key, entries
sorted ascending by key. -/
def listViewGroups (evs : List Event) : List (String × List Event) :=
  sortPairs (groupsUnsorted evs)

/-- Invariant of the grouping loop after processing the events `done`. -/
def GroupInv (done : List Event) (m : List (String × List Event)) : Prop :=
  ((m.map Prod.fst).Nodup) ∧
  (∀ p ∈ m, p.2 = done.filter (fun e2 => groupKey e2 == p.1)) ∧
  (∀ k, k ∈ m.map Prod.fst ↔ k ∈ done.map groupKey)

theorem insertEvent_keys_mem :
    ∀ m : List (String × List Event), ∀ k e, k ∈ m.map Prod.fst →
      (insertEvent m k e).map Prod.fst = m.map Prod.fst := by
  intro m
  induction m with
  | nil => intro k e h; simp at h
  | cons q rest ih =>
    intro k e h
    by_cases hq : q.1 = k
    · unfold insertEvent
      rw [if_pos hq]
      simp
    · unfold insertEvent
      rw [if_neg hq]
      simp only [List.map_cons]
      rw [ih k e]
      simp only [List.map_cons, List.mem_cons] at h
      rcases h with h | h
      · exact absurd h.symm hq
      · exact h

theorem insertEvent_keys_not_mem :
    ∀ m : List (String × List Event), ∀ k e, k ∉ m.map Prod.fst →
      (insertEvent m k e).map Prod.fst = m.map Prod.fst ++ [k] := by
  intro m
  induction m with
  | nil => intro k e _; rfl
  | cons q rest ih =>
    intro k e h
    simp only [List.map_cons, List.mem_cons, not_or] at h
    unfold insertEvent
    rw [if_neg (fun he => h.1 he.symm)]
    simp only [List.map_cons, List.cons_append]
    rw [ih k e h.2]

theorem insertEvent_mem_cases :
    ∀ m : List (String × List Event), ∀ k e, (m.map Prod.fst).Nodup →
      ∀ p ∈ insertEvent m k e,
        (p ∈ m ∧ p.1 ≠ k) ∨ (∃ v, (k, v) ∈ m ∧ p = (k, v ++ [e])) ∨
          (k ∉ m.map Prod.fst ∧ p = (k, [e])) := by
  intro m
  induction m with
  | nil =>
    intro k e _ p hp
    rcases List.mem_singleton.mp hp with rfl
    exact Or.inr (Or.inr ⟨by simp, rfl⟩)
  | cons q rest ih =>
    intro k e hnd p hp
    simp only [List.map_cons, List.nodup_cons] at hnd
    by_cases hq : q.1 = k
    · unfold insertEvent at hp
      rw [if_pos hq] at hp
      rcases List.mem_cons.mp hp with rfl | hp'
      · refine Or.inr (Or.inl ⟨q.2, ?_, by rw [hq]⟩)
        rw [← hq]
        exact List.mem_cons_self q rest
      · refine Or.inl ⟨List.mem_cons_of_mem q hp', ?_⟩
        intro hpk
        exact hnd.1 (by
          rw [hq, ← hpk]
          exact List.mem_map_of_mem Prod.fst hp')
    · unfold insertEvent at hp
      rw [if_neg hq] at hp
      rcases List.mem_cons.mp hp with rfl | hp'
      · exact Or.inl ⟨List.mem_cons_self p rest, hq⟩
      · rcases ih k e hnd.2 p hp' with h | ⟨v, hv, hpv⟩ | ⟨hk, hpv⟩
        · exact Or.inl ⟨List.mem_cons_of_mem q h.1, h.2⟩
        · exact Or.inr (Or.inl ⟨v, List.mem_cons_of_mem q hv, hpv⟩)
        · refine Or.inr (Or.inr ⟨?_, hpv⟩)
          simp only [List.map_cons, List.mem_cons, not_or]
          exact ⟨fun he => hq he.symm, hk⟩

theorem groupInv_step (done : List Event) (m : List (String × List Event)) (e : Event)
    (h : GroupInv done m) : GroupInv (done ++ [e]) (insertEvent m (groupKey e) e) := by
  obtain ⟨hnd, hfil, hkeys⟩ := h
  refine ⟨?_, ?_, ?_⟩
  · by_cases hk : groupKey e ∈ m.map Prod.fst
    · rw [insertEvent_keys_mem m _ e hk]; exact hnd
    · rw [insertEvent_keys_not_mem m _ e hk]
      exact hnd.append (List.nodup_singleton _) (by simpa using hk)
  · intro p hp
    rcases insertEvent_mem_cases m _ e hnd p hp with ⟨hpm, hpk⟩ | ⟨v, hv, rfl⟩ | ⟨hk, rfl⟩
    · rw [hfil p hpm, List.filter_append]
      have : List.filter (fun e2 => groupKey e2 == p.1) [e] = [] := by
        simp only [List.filter, beq_eq_false_iff_ne.mpr (fun he => hpk he.symm)]
      rw [this, List.append_nil]
    · rw [List.filter_append]
      have hv2 := hfil (groupKey e, v) hv
      simp only at hv2
      rw [← hv2]
      have : List.filter (fun e2 => groupKey e2 == (groupKey e, v ++ [e]).1) [e] = [e] := by
        simp [List.filter]
      rw [show ((groupKey e, v ++ [e]).1) = groupKey e from rfl] at this ⊢
      rw [this]
    · rw [List.filter_append]
      have h1 : List.filter (fun e2 => groupKey e2 == (groupKey e, [e]).1) done = [] := by
        rw [List.filter_eq_nil_iff]
        intro a ha hba
        exact hk ((hkeys (groupKey e)).mpr (by
          have : groupKey a = groupKey e := by
            simpa using hba
          exact this ▸ List.mem_map_of_mem groupKey ha))
      rw [h1, List.nil_append]
      simp [List.filter]
  · intro k
    have hr : k ∈ (done ++ [e]).map groupKey ↔ k ∈ done.map groupKey ∨ k = groupKey e := by
      simp
    by_cases hk : groupKey e ∈ m.map Prod.fst
    · rw [insertEvent_keys_mem m _ e hk, hr]
      constructor
      · intro h; exact Or.inl ((hkeys k).mp h)
      · rintro (h | rfl)
        · exact (hkeys k).mpr h
        · exact hk
    · rw [insertEvent_keys_not_mem m _ e hk, hr]
      simp only [List.mem_append, List.mem_singleton]
      constructor
      · rintro (h | rfl)
        · exact Or.inl ((hkeys k).mp h)
        · exact Or.inr rfl
      · rintro (h | rfl)
        · exact Or.inl ((hkeys k).mpr h)
        · exact Or.inr rfl

theorem foldl_groupInv :
    ∀ (evs done : List Event) (m : List (String × List Event)), GroupInv done m →
      GroupInv (done ++ evs) (evs.foldl (fun m2 e => insertEvent m2 (groupKey e) e) m) := by
  intro evs
  induction evs with
  | nil => intro done m h; simpa using h
  | cons e evs ih =>
    intro done m h
    have step := groupInv_step done m e h
    have := ih (done ++ [e]) _ step
    rw [List.append_assoc, List.singleton_append] at this
    simpa using this

theorem groupsUnsorted_inv (evs : List Event) : GroupInv evs (groupsUnsorted evs) := by
  have := foldl_groupInv evs [] [] ⟨List.nodup_nil, by simp, by simp⟩
  simpa [groupsUnsorted] using this

theorem insertPair_perm (p : String × List Event) :
    ∀ l, List.Perm (insertPair p l) (p :: l) := by
  intro l
  induction l with
  | nil => exact List.Perm.refl _
  | cons q rest ih =>
    unfold insertPair
    by_cases h : p.1 < q.1
    · rw [if_pos h]
    · rw [if_neg h]
      exact (ih.cons q).trans (List.Perm.swap p q rest)

theorem sortPairs_perm : ∀ l, List.Perm (sortPairs l) l := by
  intro l
  induction l with
  | nil => exact List.Perm.refl _
  | cons x rest ih =>
    show List.Perm (insertPair x (sortPairs rest)) (x :: rest)
    exact (insertPair_perm x (sortPairs rest)).trans (ih.cons x)

theorem insertPair_sorted (p : String × List Event) :
    ∀ l, List.Pairwise (fun a b => a.1 ≤ b.1) l →
      List.Pairwise (fun a b => a.1 ≤ b.1) (insertPair p l) := by
  intro l
  induction l with
  | nil => intro _; exact List.pairwise_singleton _ p
  | cons q rest ih =>
    intro h
    rcases List.pairwise_cons.mp h with ⟨hq, hrest⟩
    unfold insertPair
    by_cases hlt : p.1 < q.1
    · rw [if_pos hlt]
      refine List.pairwise_cons.mpr ⟨?_, h⟩
      intro x hx
      rcases List.mem_cons.mp hx with rfl | hx'
      · exact le_of_lt hlt
      · exact (le_of_lt hlt).trans (hq x hx')
    · rw [if_neg hlt]
      refine List.pairwise_cons.mpr ⟨?_, ih hrest⟩
      intro x hx
      rcases List.mem_cons.mp ((insertPair_perm p rest).mem_iff.mp hx) with rfl | h1
      · exact le_of_not_lt hlt
      · exact hq x h1

theorem sortPairs_sorted : ∀ l, List.Pairwise (fun a b => a.1 ≤ b.1) (sortPairs l) := by
  intro l
  induction l with
  | nil => exact List.Pairwise.nil
  | cons x rest ih => exact insertPair_sorted x (sortPairs rest) ih

/-- C4 (amended): grouping yields the empty output on empty input, groups
strictly ascending by day key with one group per distinct day key of the
input, and each group equal to the input filtered to its key — i.e. events
inside a group appear in original input order, which is ascending by start
instant only when the input is already so ordered; the component itself
performs no within-group sort. -/
theorem listViewGroups_spec :
    listViewGroups [] = [] ∧
    ∀ evs : List Event,
      List.Pairwise (fun a b : String × List Event => a.1 < b.1) (listViewGroups evs) ∧
      (∀ p ∈ listViewGroups evs, p.2 = evs.filter (fun e2 => groupKey e2 == p.1)) ∧
      (∀ k : String, k ∈ (listViewGroups evs).map Prod.fst ↔ k ∈ evs.map groupKey) := by
  refine ⟨rfl, fun evs => ?_⟩
  obtain ⟨hnd, hfil, hkeys⟩ := groupsUnsorted_inv evs
  have hperm := sortPairs_perm (groupsUnsorted evs)
  refine ⟨?_, ?_, ?_⟩
  · have hle := sortPairs_sorted (groupsUnsorted evs)
    have hnd2 : ((listViewGroups evs).map Prod.fst).Nodup :=
      (hperm.map Prod.fst).nodup_iff.mpr hnd
    have hne : List.Pairwise
        (fun a b : String × List Event => a.1 ≠ b.1) (listViewGroups evs) :=
      List.pairwise_map.mp hnd2
    exact (hle.and hne).imp (fun h => lt_of_le_of_ne h.1 h.2)
  · intro p hp
    exact hfil p (hperm.mem_iff.mp hp)
  · intro k
    rw [← hkeys k]
    exact (hperm.map Prod.fst).mem_iff

/-- Event starting 2025-01-01T23:00:00Z. -/
def lateEvent : Event :=
  { id := "late", title := "Late", start_ts := 1735772400000, end_ts := 1735776000000,
    venue := none }

/-- Event starting 2025-01-01T10:00:00Z, same UTC day as `lateEvent`. -/
def earlyEvent : Event :=
  { id := "early", title := "Early", start_ts := 1735725600000, end_ts := 1735729200000,
    venue := none }

set_option maxRecDepth 10000 in
/-- C4 counterexample: for the unordered input `[lateEvent, earlyEvent]`
(same calendar day, reverse chronological order) the single produced group
keeps the input order, so it is not sorted ascending by start instant. -/
theorem listViewGroups_counterexample :
    (listViewGroups [lateEvent, earlyEvent]).map (fun p => p.2.map Event.id) =
      [["late", "early"]] ∧
    ¬ (∀ p ∈ listViewGroups [lateEvent, earlyEvent],
        List.Pairwise (fun a b : Event => a.start_ts ≤ b.start_ts) p.2) := by
  constructor
  · decide
  · decide

/-- C8: the displayed week is exactly seven days long
(`endOfWeek = startOfWeek + 7 days`, for every fixed local-time offset and
reference instant), and the `WeekView` filter keeps an event exactly when
its start lies in the half-open interval `[startOfWeek, endOfWeek)` — in
particular the instant at the start boundary belongs to the week and the
instant at the end boundary does not. -/
theorem week_interval :
    ∀ off t : Int,
      endOfWeek off t = startOfWeek off t + 7 * msPerDay ∧
      (∀ s : Int, inDisplayedWeek off t s = true ↔
        startOfWeek off t ≤ s ∧ s < endOfWeek off t) ∧
      inDisplayedWeek off t (startOfWeek off t) = true ∧
      inDisplayedWeek off t (endOfWeek off t) = false := by
  intro off t
  have he := endOfWeek_eq off t
  have hiff : ∀ s : Int, inDisplayedWeek off t s = true ↔
      startOfWeek off t ≤ s ∧ s < endOfWeek off t := by
    intro s
    unfold inDisplayedWeek
    rw [Bool.and_eq_true, decide_eq_true_eq, decide_eq_true_eq]
  refine ⟨he, hiff, ?_, ?_⟩
  · rw [hiff]
    refine ⟨le_refl _, ?_⟩
    rw [he]
    unfold msPerDay
    omega
  · rw [show inDisplayedWeek off t (endOfWeek off t) = false ↔
        ¬ inDisplayedWeek off t (endOfWeek off t) = true by simp]
    rw [hiff]
    rintro ⟨-, h⟩
    exact lt_irrefl _ h

/-! ### Event creation endpoint (`POST /api/events`) -/

/-- Destructured JSON request body of the creation endpoint; a field is
`none` when absent from the body (`body || {}` makes all fields absent for
a null body). -/
structure CreateBody where
  title : Option String
  start_ts : Option String
  end_ts : Option String
  venue : Option String

/-- JS truthiness test of an optional string field: absent or empty is
falsy. -/
def falsyStr : Option String → Bool
  | none => true
  | some s => s == ""

/-- JSON value of a creation response body: either `{error: string}` or the
created row. -/
inductive JsonOut where
  | errObj (msg : String)
  | record (row : Event)

/-- Response of the creation endpoint. -/
structure PostResponse where
  status : Nat
  body : JsonOut

/-- Transcription of the `POST /api/events` handler.  `reqBody` is the
outcome of `await req.json()` (an exception message on a malformed body,
caught by the handler's `try`/`catch`), and `ins` is the outcome of the
store insert (`error.message` or the returned row). -/
def POST (reqBody : Except String CreateBody) (ins : Except String Event) : PostResponse :=
  match reqBody with
  | .error msg => ⟨500, .errObj msg⟩
  | .ok b =>
    if falsyStr b.title || falsyStr b.start_ts || falsyStr b.end_ts then
      ⟨400, .errObj "title, start_ts, and end_ts are required"⟩
    else
      match ins with
      | .error m => ⟨400, .errObj m⟩
      | .ok row => ⟨201, .record row⟩

/-- C6: the creation endpoint answers 400 with the fixed validation message
when any of title, start_ts, end_ts is absent or empty, 400 carrying the
store's message on an insert failure, 201 with the created record on
success, and 500 with an error object when reading the request body throws
(e.g. malformed JSON). -/
theorem POST_cases :
    (∀ msg ins, POST (.error msg) ins = ⟨500, .errObj msg⟩) ∧
    (∀ b ins, (falsyStr b.title || falsyStr b.start_ts || falsyStr b.end_ts) = true →
      POST (.ok b) ins = ⟨400, .errObj "title, start_ts, and end_ts are required"⟩) ∧
    (∀ b m, (falsyStr b.title || falsyStr b.start_ts || falsyStr b.end_ts) = false →
      POST (.ok b) (.error m) = ⟨400, .errObj m⟩) ∧
    (∀ b row, (falsyStr b.title || falsyStr b.start_ts || falsyStr b.end_ts) = false →
      POST (.ok b) (.ok row) = ⟨201, .record row⟩) := by
  refine ⟨fun _ _ => rfl, ?_, ?_, ?_⟩
  · intro b ins h
    simp [POST, h]
  · intro b m h
    simp [POST, h]
  · intro b row h
    simp [POST, h]

/-! ### External calendar link builder (`buildGoogleCalUrl`)

`URLSearchParams` serializes `application/x-www-form-urlencoded`: ASCII
alphanumerics and `* - . _` pass through, a space becomes `+`, every other
character is percent-encoded byte-by-byte from its UTF-8 encoding with
uppercase hex digits.
-/

/-- Characters the urlencoded serializer leaves unchanged. -/
def unreservedParamChar (c : Char) : Bool :=
  (decide ('a' ≤ c) && decide (c ≤ 'z')) || (decide ('A' ≤ c) && decide (c ≤ 'Z')) ||
    (decide ('0' ≤ c) && decide (c ≤ '9')) || c = '*' || c = '-' || c = '.' || c = '_'

/-- UTF-8 encoding of one character, as byte values. -/
def utf8Bytes (c : Char) : List Nat :=
  let v := c.toNat
  if v < 128 then [v]
  else if v < 2048 then [192 + v / 64, 128 + v % 64]
  else if v < 65536 then [224 + v / 4096, 128 + v / 64 % 64, 128 + v % 64]
  else [240 + v / 262144, 128 + v / 4096 % 64, 128 + v / 64 % 64, 128 + v % 64]

/-- Uppercase hex digit. -/
def hexDigit (n : Nat) : Char := if n < 10 then Char.ofNat (48 + n) else Char.ofNat (55 + n)

/-- Percent-encoding of one byte. -/
def pctByte (b : Nat) : List Char := ['%', hexDigit (b / 16), hexDigit (b % 16)]

/-- One urlencoded token (key or value). -/
def encodeParam (s : String) : String :=
  String.mk (s.data.flatMap fun c =>
    if unreservedParamChar c then [c]
    else if c = ' ' then ['+']
    else (utf8Bytes c).flatMap pctByte)

/-- One `key=value` pair of the serialized query. -/
def paramStr (p : String × String) : String := encodeParam p.1 ++ "=" ++ encodeParam p.2

/-- Join query pairs with `&` (`URLSearchParams.toString`). -/
def joinAmp : List String → String
  | [] => ""
  | [x] => x
  | x :: xs => x ++ "&" ++ joinAmp xs

/-- The optional `location`/`details` entries: `params.set` runs only for a
truthy (present and non-empty) value. -/
def optEntry (key : String) : Option String → List (String × String)
  | some v => if v == "" then [] else [(key, v)]
  | none => []

/-- Transcription of `buildGoogleCalUrl` from `EventsList.tsx`. -/
def buildGoogleCalUrl (title : String) (startT endT : Int)
    (location details : Option String) : String :=
  let params := [("action", "TEMPLATE"), ("text", title),
      ("dates", toGoogleDateUTC startT ++ "/" ++ toGoogleDateUTC endT)] ++
    optEntry "location" location ++ optEntry "details" details
  "https://calendar.google.com/calendar/render" ++ "?" ++ joinAmp (params.map paramStr)

/-- Split a character list at every `&` (the URL consumer's view of the
query string). -/
def splitAmp : List Char → List (List Char)
  | [] => [[]]
  | c :: rest =>
    if c = '&' then [] :: splitAmp rest
    else (c :: (splitAmp rest).headI) :: (splitAmp rest).tail

/-- The `key=value` segments of the query string of a URL (everything after
the first `?`, split at `&`). -/
def queryParams (url : String) : List (List Char) :=
  splitAmp ((url.data.dropWhile (fun c => c != '?')).tail)

/-- Does the URL's query carry a parameter named `key`? -/
def hasParam (url : String) (key : String) : Bool :=
  (queryParams url).any (fun p => (key.data ++ ['=']).isPrefixOf p)

theorem char_toNat_lt (c : Char) : c.toNat < 1114112 := by
  have he : c.toNat = c.val.toNat := rfl
  rcases c.valid with h | h <;> omega

theorem utf8Bytes_lt (c : Char) : ∀ b ∈ utf8Bytes c, b < 256 := by
  intro b hb
  have hv := char_toNat_lt c
  unfold utf8Bytes at hb
  by_cases h1 : c.toNat < 128
  · rw [if_pos h1] at hb
    rcases List.mem_singleton.mp hb with rfl
    omega
  · rw [if_neg h1] at hb
    by_cases h2 : c.toNat < 2048
    · rw [if_pos h2] at hb
      simp only [List.mem_cons, List.not_mem_nil, or_false] at hb
      rcases hb with rfl | rfl <;> omega
    · rw [if_neg h2] at hb
      by_cases h3 : c.toNat < 65536
      · rw [if_pos h3] at hb
        simp only [List.mem_cons, List.not_mem_nil, or_false] at hb
        rcases hb with rfl | rfl | rfl <;> omega
      · rw [if_neg h3] at hb
        simp only [List.mem_cons, List.not_mem_nil, or_false] at hb
        rcases hb with rfl | rfl | rfl | rfl <;> omega

theorem hexDigit_ne_amp (n : Nat) (h : n < 16) : hexDigit n ≠ '&' := by
  interval_cases n <;> decide

theorem encodeParam_no_amp (s : String) : '&' ∉ (encodeParam s).data := by
  intro hc
  obtain ⟨a, _, hmem⟩ := List.mem_flatMap.mp hc
  by_cases h1 : unreservedParamChar a = true
  · rw [if_pos h1] at hmem
    rcases List.mem_singleton.mp hmem with h2
    rw [← h2] at h1
    exact absurd h1 (by decide)
  · rw [if_neg h1] at hmem
    by_cases h2 : a = ' '
    · rw [if_pos h2] at hmem
      simp at hmem
    · rw [if_neg h2] at hmem
      obtain ⟨b, hb, hcb⟩ := List.mem_flatMap.mp hmem
      have hblt := utf8Bytes_lt a b hb
      simp only [pctByte, List.mem_cons, List.not_mem_nil, or_false] at hcb
      rcases hcb with h3 | h3 | h3
      · exact absurd h3.symm (by decide)
      · exact hexDigit_ne_amp (b / 16) (by omega) h3.symm
      · exact hexDigit_ne_amp (b % 16) (by omega) h3.symm

theorem splitAmp_cons_ne (c : Char) (l : List Char) (hc : c ≠ '&') :
    splitAmp (c :: l) = (c :: (splitAmp l).headI) :: (splitAmp l).tail := by
  conv_lhs => rw [splitAmp]
  rw [if_neg hc]

theorem splitAmp_cons_amp (l : List Char) : splitAmp ('&' :: l) = [] :: splitAmp l := by
  conv_lhs => rw [splitAmp]
  rw [if_pos rfl]

theorem splitAmp_single : ∀ l : List Char, '&' ∉ l → splitAmp l = [l] := by
  intro l
  induction l with
  | nil => intro _; rfl
  | cons c rest ih =>
    intro h
    rw [List.mem_cons, not_or] at h
    rw [splitAmp_cons_ne c rest (fun he => h.1 he.symm), ih h.2]
    rfl

theorem splitAmp_sep : ∀ l t : List Char, '&' ∉ l →
    splitAmp (l ++ '&' :: t) = l :: splitAmp t := by
  intro l
  induction l with
  | nil =>
    intro t _
    rw [List.nil_append, splitAmp_cons_amp]
  | cons c rest ih =>
    intro t h
    rw [List.mem_cons, not_or] at h
    rw [List.cons_append, splitAmp_cons_ne c _ (fun he => h.1 he.symm), ih t h.2]
    rfl

theorem joinAmp_data_cons (x y : String) (xs : List String) :
    (joinAmp (x :: y :: xs)).data = x.data ++ '&' :: (joinAmp (y :: xs)).data := by
  show ((x ++ "&") ++ joinAmp (y :: xs)).data = _
  rw [String.data_append, String.data_append, List.append_assoc]
  rfl

theorem splitAmp_joinAmp : ∀ ls : List String, ls ≠ [] → (∀ l ∈ ls, '&' ∉ l.data) →
    splitAmp (joinAmp ls).data = ls.map String.data := by
  intro ls
  induction ls with
  | nil => intro h _; exact absurd rfl h
  | cons x ls' ih =>
    intro _ hfree
    cases ls' with
    | nil => exact splitAmp_single x.data (hfree x (List.mem_cons_self x []))
    | cons y ls'' =>
      rw [joinAmp_data_cons, splitAmp_sep x.data _ (hfree x (List.mem_cons_self x _)),
          ih (by simp) (fun l hl => hfree l (List.mem_cons_of_mem x hl))]
      rfl

theorem dropWhile_until :
    ∀ a rest : List Char, (∀ c ∈ a, c ≠ '?') →
      (a ++ '?' :: rest).dropWhile (fun c => c != '?') = '?' :: rest := by
  intro a
  induction a with
  | nil => intro rest _; simp [List.dropWhile]
  | cons c a' ih =>
    intro rest h
    rw [List.cons_append, List.dropWhile_cons]
    have hc : (c != '?') = true := bne_iff_ne.mpr (h c (List.mem_cons_self c a'))
    rw [if_pos hc]
    exact ih rest (fun x hx => h x (List.mem_cons_of_mem c hx))

theorem paramStr_no_amp (p : String × String) : '&' ∉ (paramStr p).data := by
  unfold paramStr
  rw [String.data_append, String.data_append]
  intro h
  rcases List.mem_append.mp h with h1 | h1
  · rcases List.mem_append.mp h1 with h2 | h2
    · exact encodeParam_no_amp p.1 h2
    · simp at h2
  · exact encodeParam_no_amp p.2 h1

theorem queryParams_build (title : String) (startT endT : Int)
    (location details : Option String) :
    queryParams (buildGoogleCalUrl title startT endT location details) =
      (([("action", "TEMPLATE"), ("text", title),
        ("dates", toGoogleDateUTC startT ++ "/" ++ toGoogleDateUTC endT)] ++
        optEntry "location" location ++ optEntry "details" details).map
          (fun p => (paramStr p).data)) := by
  unfold queryParams buildGoogleCalUrl
  rw [show ("https://calendar.google.com/calendar/render" ++ "?" ++
        joinAmp ((([("action", "TEMPLATE"), ("text", title),
          ("dates", toGoogleDateUTC startT ++ "/" ++ toGoogleDateUTC endT)] ++
          optEntry "location" location ++ optEntry "details" details).map paramStr))).data =
      "https://calendar.google.com/calendar/render".data ++ '?' ::
        (joinAmp ((([("action", "TEMPLATE"), ("text", title),
          ("dates", toGoogleDateUTC startT ++ "/" ++ toGoogleDateUTC endT)] ++
          optEntry "location" location ++ optEntry "details" details).map paramStr))).data
      from by rw [String.data_append, String.data_append]; rfl]
  rw [dropWhile_until _ _ (by decide), List.tail_cons]
  rw [splitAmp_joinAmp _ (by simp) (by
    intro l hl
    obtain ⟨p, _, rfl⟩ := List.mem_map.mp hl
    exact paramStr_no_amp p)]
  rw [List.map_map]
  rfl

theorem flatMap_id_of (f : Char → List Char) :
    ∀ l : List Char, (∀ c ∈ l, f c = [c]) → l.flatMap f = l := by
  intro l
  induction l with
  | nil => intro _; rfl
  | cons c rest ih =>
    intro h
    rw [List.flatMap_cons, h c (List.mem_cons_self c rest),
        ih (fun x hx => h x (List.mem_cons_of_mem c hx))]
    rfl

theorem encodeParam_id (s : String) (h : ∀ c ∈ s.data, unreservedParamChar c = true) :
    encodeParam s = s := by
  unfold encodeParam
  rw [flatMap_id_of _ s.data (fun c hc => by rw [if_pos (h c hc)])]

theorem encodeParam_slash (a b : String)
    (ha : ∀ c ∈ a.data, unreservedParamChar c = true)
    (hb : ∀ c ∈ b.data, unreservedParamChar c = true) :
    (encodeParam (a ++ "/" ++ b)).data = a.data ++ ('%' :: '2' :: 'F' :: b.data) := by
  show (a ++ "/" ++ b).data.flatMap _ = _
  rw [show (a ++ "/" ++ b).data = a.data ++ '/' :: b.data from by
        rw [String.data_append, String.data_append, List.append_assoc]; rfl]
  rw [List.flatMap_append, List.flatMap_cons]
  rw [flatMap_id_of _ a.data (fun c hc => by rw [if_pos (ha c hc)]),
      flatMap_id_of _ b.data (fun c hc => by rw [if_pos (hb c hc)])]
  rfl

theorem paramStr_dates (a b : String)
    (ha : ∀ c ∈ a.data, unreservedParamChar c = true)
    (hb : ∀ c ∈ b.data, unreservedParamChar c = true) :
    (paramStr ("dates", a ++ "/" ++ b)).data = ("dates=" ++ a ++ "%2F" ++ b).data := by
  show (encodeParam "dates" ++ "=" ++ encodeParam (a ++ "/" ++ b)).data = _
  rw [String.data_append, String.data_append]
  rw [encodeParam_slash a b ha hb]
  rw [show ("dates=" ++ a ++ "%2F" ++ b).data =
        (("dates=".data ++ a.data) ++ "%2F".data) ++ b.data from by
        rw [String.data_append, String.data_append, String.data_append]]
  simp only [List.append_assoc]
  rfl

theorem icsTimeChars_unreserved : ∀ c ∈ icsTimeChars, unreservedParamChar c = true := by
  decide

theorem toGoogleDateUTC_unreserved (t : Int) :
    ∀ c ∈ (toGoogleDateUTC t).data, unreservedParamChar c = true :=
  fun c hc => icsTimeChars_unreserved c (toIcsUtc_chars t c hc)

theorem isPrefixOf_false_one (x y : List Char) (a b : Char) (l1 l2 : List Char)
    (hx : x = a :: l1) (hy : y = b :: l2) (h : (a == b) = false) :
    x.isPrefixOf y = false := by
  subst hx; subst hy
  show (a == b && l1.isPrefixOf l2) = false
  rw [h, Bool.false_and]

theorem isPrefixOf_false_two (x y : List Char) (a a2 b b2 : Char) (l1 l2 : List Char)
    (hx : x = a :: a2 :: l1) (hy : y = b :: b2 :: l2) (h : (a2 == b2) = false) :
    x.isPrefixOf y = false := by
  subst hx; subst hy
  show (a == b && (a2 == b2 && l1.isPrefixOf l2)) = false
  rw [h, Bool.false_and, Bool.and_false]

theorem locPred_action :
    (("location".data ++ ['=']).isPrefixOf ((paramStr ("action", "TEMPLATE")).data)) = false :=
  rfl

theorem locPred_text (t : String) :
    (("location".data ++ ['=']).isPrefixOf ((paramStr ("text", t)).data)) = false :=
  isPrefixOf_false_one _ _ 'l' 't' _ _ rfl rfl rfl

theorem locPred_dates (v : String) :
    (("location".data ++ ['=']).isPrefixOf ((paramStr ("dates", v)).data)) = false :=
  isPrefixOf_false_one _ _ 'l' 'd' _ _ rfl rfl rfl

theorem locPred_details (d : String) :
    (("location".data ++ ['=']).isPrefixOf ((paramStr ("details", d)).data)) = false :=
  isPrefixOf_false_one _ _ 'l' 'd' _ _ rfl rfl rfl

theorem locPred_self (l : String) :
    (("location".data ++ ['=']).isPrefixOf ((paramStr ("location", l)).data)) = true := by
  rw [show (paramStr ("location", l)).data =
        ("location".data ++ ['=']) ++ (encodeParam l).data from by
        show ((encodeParam "location" ++ "=") ++ encodeParam l).data = _
        rw [String.data_append,
            show (encodeParam "location" ++ "=").data = "location".data ++ ['='] from by decide]]
  exact isPrefixOf_append_self _ _

theorem detPred_action :
    (("details".data ++ ['=']).isPrefixOf ((paramStr ("action", "TEMPLATE")).data)) = false :=
  rfl

theorem detPred_text (t : String) :
    (("details".data ++ ['=']).isPrefixOf ((paramStr ("text", t)).data)) = false :=
  isPrefixOf_false_one _ _ 'd' 't' _ _ rfl rfl rfl

theorem detPred_dates (v : String) :
    (("details".data ++ ['=']).isPrefixOf ((paramStr ("dates", v)).data)) = false :=
  isPrefixOf_false_two _ _ 'd' 'e' 'd' 'a' _ _ rfl rfl rfl

theorem detPred_location (l : String) :
    (("details".data ++ ['=']).isPrefixOf ((paramStr ("location", l)).data)) = false :=
  isPrefixOf_false_one _ _ 'd' 'l' _ _ rfl rfl rfl

theorem detPred_self (d : String) :
    (("details".data ++ ['=']).isPrefixOf ((paramStr ("details", d)).data)) = true := by
  rw [show (paramStr ("details", d)).data =
        ("details".data ++ ['=']) ++ (encodeParam d).data from by
        show ((encodeParam "details" ++ "=") ++ encodeParam d).data = _
        rw [String.data_append,
            show (encodeParam "details" ++ "=").data = "details".data ++ ['='] from by decide]]
  exact isPrefixOf_append_self _ _

/-- Is an optional input "truthy": present with a non-empty value? -/
def presentNonEmpty : Option String → Bool
  | some v => !(v == "")
  | none => false

theorem fixedEntries_loc (title : String) (startT endT : Int) :
    (([("action", "TEMPLATE"), ("text", title),
        ("dates", toGoogleDateUTC startT ++ "/" ++ toGoogleDateUTC endT)].map
          (fun p => (paramStr p).data)).any
      (fun p => ("location".data ++ ['=']).isPrefixOf p)) = false := by
  simp only [List.map_cons, List.map_nil, List.any_cons, List.any_nil, Bool.or_false]
  rw [locPred_action, locPred_text, locPred_dates]
  rfl

theorem fixedEntries_det (title : String) (startT endT : Int) :
    (([("action", "TEMPLATE"), ("text", title),
        ("dates", toGoogleDateUTC startT ++ "/" ++ toGoogleDateUTC endT)].map
          (fun p => (paramStr p).data)).any
      (fun p => ("details".data ++ ['=']).isPrefixOf p)) = false := by
  simp only [List.map_cons, List.map_nil, List.any_cons, List.any_nil, Bool.or_false]
  rw [detPred_action, detPred_text, detPred_dates]
  rfl

theorem optDet_loc (details : Option String) :
    (((optEntry "details" details).map (fun p => (paramStr p).data)).any
      (fun p => ("location".data ++ ['=']).isPrefixOf p)) = false := by
  cases details with
  | none => rfl
  | some d =>
    simp only [optEntry]
    by_cases hd : (d == "") = true
    · rw [if_pos hd]; rfl
    · rw [if_neg hd]
      simp only [List.map_cons, List.map_nil, List.any_cons, List.any_nil, Bool.or_false]
      exact locPred_details d

theorem optLoc_det (location : Option String) :
    (((optEntry "location" location).map (fun p => (paramStr p).data)).any
      (fun p => ("details".data ++ ['=']).isPrefixOf p)) = false := by
  cases location with
  | none => rfl
  | some l =>
    simp only [optEntry]
    by_cases hl : (l == "") = true
    · rw [if_pos hl]; rfl
    · rw [if_neg hl]
      simp only [List.map_cons, List.map_nil, List.any_cons, List.any_nil, Bool.or_false]
      exact detPred_location l

theorem optLoc_loc (location : Option String) :
    (((optEntry "location" location).map (fun p => (paramStr p).data)).any
      (fun p => ("location".data ++ ['=']).isPrefixOf p)) = presentNonEmpty location := by
  cases location with
  | none => rfl
  | some l =>
    simp only [optEntry]
    by_cases hl : (l == "") = true
    · rw [if_pos hl, show presentNonEmpty (some l) = !(l == "") from rfl, hl]; rfl
    · rw [if_neg hl]
      simp only [List.map_cons, List.map_nil, List.any_cons, List.any_nil, Bool.or_false]
      rw [locPred_self l, show presentNonEmpty (some l) = !(l == "") from rfl,
          Bool.eq_false_iff.mpr hl]
      rfl

theorem optDet_det (details : Option String) :
    (((optEntry "details" details).map (fun p => (paramStr p).data)).any
      (fun p => ("details".data ++ ['=']).isPrefixOf p)) = presentNonEmpty details := by
  cases details with
  | none => rfl
  | some d =>
    simp only [optEntry]
    by_cases hd : (d == "") = true
    · rw [if_pos hd, show presentNonEmpty (some d) = !(d == "") from rfl, hd]; rfl
    · rw [if_neg hd]
      simp only [List.map_cons, List.map_nil, List.any_cons, List.any_nil, Bool.or_false]
      rw [detPred_self d, show presentNonEmpty (some d) = !(d == "") from rfl,
          Bool.eq_false_iff.mpr hd]
      rfl

theorem hasParam_location_eq (title : String) (startT endT : Int)
    (location details : Option String) :
    hasParam (buildGoogleCalUrl title startT endT location details) "location" =
      presentNonEmpty location := by
  unfold hasParam
  rw [queryParams_build]
  rw [List.map_append, List.map_append, List.any_append, List.any_append]
  rw [fixedEntries_loc title startT endT, optLoc_loc location, optDet_loc details]
  rw [Bool.false_or, Bool.or_false]

theorem hasParam_details_eq (title : String) (startT endT : Int)
    (location details : Option String) :
    hasParam (buildGoogleCalUrl title startT endT location details) "details" =
      presentNonEmpty details := by
  unfold hasParam
  rw [queryParams_build]
  rw [List.map_append, List.map_append, List.any_append, List.any_append]
  rw [fixedEntries_det title startT endT, optLoc_det location, optDet_det details]
  rw [Bool.false_or, Bool.false_or]

/-- C9 (amended): for every title, start/end instant, and optional
location/details, the calendar link's query carries a `dates` parameter whose
value is the two compact UTC timestamps separated by a percent-encoded slash
(`%2F`), and it carries the `location` / `details` parameters exactly when
those inputs are present *and non-empty* (the builder's truthiness test drops
a present-but-empty string, so "present" alone is not enough). -/
theorem buildGoogleCalUrl_spec (title : String) (startT endT : Int)
    (location details : Option String) :
    ("dates=" ++ toGoogleDateUTC startT ++ "%2F" ++ toGoogleDateUTC endT).data ∈
        queryParams (buildGoogleCalUrl title startT endT location details) ∧
    (hasParam (buildGoogleCalUrl title startT endT location details) "location" = true ↔
        ∃ l, location = some l ∧ l ≠ "") ∧
    (hasParam (buildGoogleCalUrl title startT endT location details) "details" = true ↔
        ∃ d, details = some d ∧ d ≠ "") := by
  refine ⟨?_, ?_, ?_⟩
  · rw [queryParams_build]
    refine List.mem_map.mpr
      ⟨("dates", toGoogleDateUTC startT ++ "/" ++ toGoogleDateUTC endT), ?_,
        paramStr_dates _ _ (toGoogleDateUTC_unreserved startT)
          (toGoogleDateUTC_unreserved endT)⟩
    exact List.mem_append_left _ (List.mem_append_left _
      (List.mem_cons_of_mem _ (List.mem_cons_of_mem _ (List.mem_cons_self _ _))))
  · rw [hasParam_location_eq title startT endT location details]
    cases location with
    | none => simp [presentNonEmpty]
    | some l => simp [presentNonEmpty]
  · rw [hasParam_details_eq title startT endT location details]
    cases details with
    | none => simp [presentNonEmpty]
    | some d => simp [presentNonEmpty]

set_option maxRecDepth 10000 in
/-- C9 counterexample: with a present-but-empty location the builder omits the
`location` parameter entirely — the URL is identical to the one built with no
location at all, and its query carries no `location` parameter, refuting
"included exactly when present". -/
theorem buildGoogleCalUrl_counterexample :
    buildGoogleCalUrl "t" 0 0 (some "") none = buildGoogleCalUrl "t" 0 0 none none ∧
    hasParam (buildGoogleCalUrl "t" 0 0 (some "") none) "location" = false :=
  ⟨rfl, rfl⟩
